import Mathlib

/-!
Shallow embedding of PyGit (`src/main.py`), a minimal content-addressable
version-control core, together with proofs about its behaviour.

Modelling conventions:
* Python `bytes` values are lists of byte values (`Bytes := List Nat`);
  Python `str` values are lists of Unicode code points (`PyStr := List Nat`).
  Every string the program manipulates is ASCII, where UTF-8 `encode`/`decode`
  is the identity on code points, so the two representations coincide and
  `.encode()` / `.decode()` are modelled as the identity.
* `hashlib.sha1(...).hexdigest()` is a fixed pure function; it is passed as an
  explicit parameter `sha1 : Bytes → PyStr`.  Likewise `zlib.compress` /
  `zlib.decompress` are passed as parameters; `zlib` is lossless, so concrete
  instantiations use the identity.
* The filesystem object store (`.pygit/objects/xx/yyyy…`) is an association
  list keyed by the full hex hash (the `xx`/`yyyy…` split is a bijective
  renaming of the key and is not modelled separately).  Branch-ref files
  (`.pygit/refs/heads/<name>`) are an association list from branch name to the
  file's text.  Python 3 dicts preserve insertion order and assignment to an
  existing key keeps its position, which is exactly `dictSet` below.
* Fallible Python code (uncaught exceptions such as `ValueError` from `int`,
  `NameError`, failed tuple unpacking) is modelled with `Option`, `none`
  standing for a raised exception.
-/

namespace PyGit

/-- Python `bytes`: a list of byte values. -/
abbrev Bytes := List Nat

/-- Python `str`: a list of Unicode code points (ASCII throughout). -/
abbrev PyStr := List Nat

/-- Code points of a Lean string literal, used to transcribe Python string
literals into the model. -/
def pystr (s : String) : List Nat := s.data.map Char.toNat

/-- Recursion worker for `natStr`; the first argument is fuel (structural
recursion), always called with more fuel than the value has digits. -/
def natStrGo : Nat → Nat → List Nat
  | 0, _ => []
  | fuel + 1, n => if n < 10 then [48 + n] else natStrGo fuel (n / 10) ++ [48 + n % 10]

/-- Python `str(n)` for a nonnegative integer: decimal digits as code points. -/
def natStr (n : Nat) : List Nat := natStrGo (n + 1) n

/-- Python `str(i)` for an arbitrary integer (`45` is `'-'`). -/
def intStr (i : Int) : List Nat := if i < 0 then 45 :: natStr i.natAbs else natStr i.toNat

/-- Python `s.startswith(p)` (the pattern is the first argument). -/
def pyStartsWith : List Nat → List Nat → Bool
  | [], _ => true
  | _ :: _, [] => false
  | a :: p, b :: s => a == b && pyStartsWith p s

/-- Python `s.split(sep)` for a one-character separator: splits at every
occurrence, keeping empty pieces; `"".split(sep) == [""]`. -/
def pySplit (sep : Nat) : List Nat → List (List Nat)
  | [] => [[]]
  | c :: rest =>
    match pySplit sep rest with
    | [] => [[]]
    | grp :: grps => if c = sep then [] :: grp :: grps else (c :: grp) :: grps

/-- Python `sep.join(pieces)` for a one-character separator. -/
def pyJoin (sep : Nat) : List (List Nat) → List Nat
  | [] => []
  | [x] => x
  | x :: rest => x ++ sep :: pyJoin sep rest

/-- Worker for `pyRsplit`: split the (already reversed) string from the left
at most `maxsplit` times. -/
def splitLeftMax (sep : Nat) : Nat → List Nat → List (List Nat)
  | _, [] => [[]]
  | 0, s => [s]
  | k + 1, c :: rest =>
    if c = sep then [] :: splitLeftMax sep k rest
    else
      match splitLeftMax sep (k + 1) rest with
      | [] => [[c]]
      | g :: gs => (c :: g) :: gs

/-- Python `s.rsplit(sep, maxsplit)` for a one-character separator. -/
def pyRsplit (sep : Nat) (maxsplit : Nat) (s : List Nat) : List (List Nat) :=
  ((splitLeftMax sep maxsplit s.reverse).map List.reverse).reverse

/-- Python whitespace, as stripped by `str.strip()`. -/
def pySpace (c : Nat) : Bool := c = 9 || c = 10 || c = 11 || c = 12 || c = 13 || c = 32

/-- Python `s.strip()`. -/
def pyStrip (s : List Nat) : List Nat :=
  ((s.dropWhile pySpace).reverse.dropWhile pySpace).reverse

/-- Truthiness of a Python string: nonempty. -/
def pyTruthy (s : List Nat) : Bool := !s.isEmpty

/-- Python `bs.find(b)` on bytes: index of the first occurrence, `-1` if absent. -/
def pyFind : List Nat → Nat → Int
  | [], _ => -1
  | c :: rest, b =>
    if c = b then 0
    else
      let r := pyFind rest b
      if r < 0 then -1 else r + 1

/-- Python slice `l[:i]` with a possibly negative index. -/
def pySliceTo (l : List Nat) (i : Int) : List Nat :=
  if i < 0 then l.take (l.length - i.natAbs) else l.take i.toNat

/-- Python slice `l[i:]` with a possibly negative index. -/
def pySliceFrom (l : List Nat) (i : Int) : List Nat :=
  if i < 0 then l.drop (l.length - i.natAbs) else l.drop i.toNat

/-- Worker for `pyIntParse`: decimal digits with an accumulator; any non-digit
raises (`none`). -/
def digitsValGo : List Nat → Nat → Option Nat
  | [], acc => some acc
  | c :: rest, acc =>
    if 48 ≤ c ∧ c ≤ 57 then digitsValGo rest (acc * 10 + (c - 48)) else none

/-- Python `int(s)` on an exact decimal literal, optionally `'-'`-signed
(`45` is `'-'`); `none` models the raised `ValueError`.  Every call site
parses text rendered by `str(int)`, which is exactly of this shape. -/
def pyIntParse (s : List Nat) : Option Int :=
  match s with
  | [] => none
  | c :: rest =>
    if c = 45 then
      if rest = [] then none
      else (digitsValGo rest 0).map fun m => -(m : Int)
    else (digitsValGo (c :: rest) 0).map fun m => (m : Int)

/-- One hex digit's value (`bytes.fromhex`); Python raises `ValueError` on a
non-hex digit, which no code path of the claims exercises — the model reads
such a digit as `0`. -/
def hexDigit (c : Nat) : Nat :=
  if 48 ≤ c ∧ c ≤ 57 then c - 48
  else if 97 ≤ c ∧ c ≤ 102 then c - 87
  else if 65 ≤ c ∧ c ≤ 70 then c - 55
  else 0

/-- Python `bytes.fromhex`: pairs of hex digits to bytes (a trailing odd digit,
a `ValueError` in Python, is dropped; all call sites pass `hexdigest` output,
which is valid and even-length). -/
def fromHex : List Nat → Bytes
  | c1 :: c2 :: rest => (hexDigit c1 * 16 + hexDigit c2) :: fromHex rest
  | _ => []

/-- Lookup in an insertion-ordered association list (Python `d[k]` / `k in d`). -/
def dictGet {α : Type} : List (PyStr × α) → PyStr → Option α
  | [], _ => none
  | (k, v) :: rest, key => if k = key then some v else dictGet rest key

/-- Python dict assignment `d[k] = v`: replace in place if the key is present,
otherwise append. -/
def dictSet {α : Type} : List (PyStr × α) → PyStr → α → List (PyStr × α)
  | [], key, v => [(key, v)]
  | (k, w) :: rest, key, v =>
    if k = key then (key, v) :: rest else (k, w) :: dictSet rest key v

/-- Python `k in d`. -/
def dictHas {α : Type} (d : List (PyStr × α)) (key : PyStr) : Bool :=
  (dictGet d key).isSome

/-- class GitObject: an immutable typed unit of storage. -/
structure GitObject where
  type : PyStr
  content : Bytes
  deriving DecidableEq

/-- The canonical header `f"{self.type} {len(self.content)}\0".encode()`. -/
def objHeader (o : GitObject) : Bytes := o.type ++ [32] ++ natStr o.content.length ++ [0]

/-- `GitObject.hash`: hex digest of header plus content. -/
def GitObject.hash (sha1 : Bytes → PyStr) (o : GitObject) : PyStr :=
  sha1 (objHeader o ++ o.content)

/-- `GitObject.serialize`: compressed header plus content. -/
def GitObject.serialize (compress : Bytes → Bytes) (o : GitObject) : Bytes :=
  compress (objHeader o ++ o.content)

/-- `GitObject.deserialize`: decompress, find the first NUL, split the header
on spaces and unpack exactly two pieces (`obj_type, _ = header.split(" ")`).
The declared length is bound to `_` and ignored; no validation happens.
`none` models the `ValueError` of a failed unpacking. -/
def GitObject.deserialize (decompress : Bytes → Bytes) (data : Bytes) : Option GitObject :=
  let d := decompress data
  let nullIdx := pyFind d 0
  let header := pySliceTo d nullIdx
  let content := pySliceFrom d (nullIdx + 1)
  match pySplit 32 header with
  | [t, _] => some { type := t, content := content }
  | _ => none

/-- class Blob. -/
def blobObj (content : Bytes) : GitObject := { type := pystr "blob", content := content }

/-- A Tree entry `(mode, name, obj_hash)`: three strings exactly as in the source. -/
abbrev Entry := PyStr × PyStr × PyStr

/-- Lexicographic comparison of code-point lists, Python `str <=`. -/
def bytesLe : List Nat → List Nat → Bool
  | [], _ => true
  | _ :: _, [] => false
  | a :: as, b :: bs => if a < b then true else if a = b then bytesLe as bs else false

/-- Lexicographic combination of two comparisons, Python tuple comparison. -/
def lexLe {α β : Type} [DecidableEq α] (la : α → α → Bool) (lb : β → β → Bool)
    (x y : α × β) : Bool :=
  if x.1 = y.1 then lb x.2 y.2 else la x.1 y.1

/-- Python `sorted` comparison on `(mode, name, obj_hash)` tuples. -/
def entryLe : Entry → Entry → Bool := lexLe bytesLe (lexLe bytesLe bytesLe)

/-- `entryLe` as a decidable relation for `List.insertionSort`. -/
def entryLeP (a b : Entry) : Prop := entryLe a b = true

instance : DecidableRel entryLeP := fun a b => inferInstanceAs (Decidable (entryLe a b = true))

/-- Python `sorted(self.entries)`: tuple sorting is by the full lexicographic
order on `(mode, name, obj_hash)`, which is total and antisymmetric, so the
sorted list is unique and any correct sorting algorithm models it. -/
def sortEntries (l : List Entry) : List Entry := List.insertionSort entryLeP l

/-- Bytes one entry contributes: `f"{mode} {name}\0".encode()` followed by
`bytes.fromhex(obj_hash)`. -/
def entryBytes (e : Entry) : Bytes := e.1 ++ [32] ++ e.2.1 ++ [0] ++ fromHex e.2.2

/-- `Tree._serialize_entries`: accumulate the serialized sorted entries. -/
def serializeEntries (entries : List Entry) : Bytes :=
  (sortEntries entries).foldl (fun content e => content ++ entryBytes e) []

/-- The `GitObject` a `Tree` with these entries is: `Tree.__init__` performs no
validation of any kind and its content is `_serialize_entries()`. -/
def treeObj (entries : List Entry) : GitObject :=
  { type := pystr "tree", content := serializeEntries entries }

/-- `Tree.add_entry`: append the tuple and recompute the content. -/
def addEntry (entries : List Entry) (mode name objHash : PyStr) : List Entry :=
  entries ++ [(mode, name, objHash)]

/-- class Commit's fields.  `tree_hash`, `author` and `committer` are `Option`
because `Commit.from_content` can pass `None` for them (Python renders `None`
as the string `"None"` inside f-strings). -/
structure Commit where
  tree_hash : Option PyStr
  parent_hashes : List PyStr
  author : Option PyStr
  committer : Option PyStr
  message : PyStr
  timestamp : Int
  deriving DecidableEq

/-- Render an optional string as Python's f-string interpolation does. -/
def optStr : Option PyStr → PyStr
  | some s => s
  | none => pystr "None"

/-- `Commit.__init__`: `self.timestamp = timestamp or int(time.time())` — both
`None` and `0` are falsy and replaced by the current time `now`. -/
def mkCommit (tree : Option PyStr) (parents : List PyStr) (author committer : Option PyStr)
    (message : PyStr) (timestamp : Option Int) (now : Int) : Commit :=
  { tree_hash := tree, parent_hashes := parents, author := author, committer := committer,
    message := message,
    timestamp :=
      match timestamp with
      | some t => if t = 0 then now else t
      | none => now }

/-- String literal `"tree "`. -/
def treeTag : PyStr := pystr "tree "

/-- String literal `"parent "`. -/
def parentTag : PyStr := pystr "parent "

/-- String literal `"author "`. -/
def authorTag : PyStr := pystr "author "

/-- String literal `"committer "`. -/
def committerTag : PyStr := pystr "committer "

/-- String literal `" +0000"`. -/
def utcTag : PyStr := pystr " +0000"

/-- `Commit._serialize_commit`: the fixed textual layout, `"\n".join(lines)`. -/
def Commit.serializeCommit (c : Commit) : Bytes :=
  pyJoin 10
    ((treeTag ++ optStr c.tree_hash) ::
      (c.parent_hashes.map fun p => parentTag ++ p) ++
        [authorTag ++ optStr c.author ++ [32] ++ intStr c.timestamp ++ utcTag,
          committerTag ++ optStr c.committer ++ [32] ++ intStr c.timestamp ++ utcTag,
          [],
          c.message])

/-- The `GitObject` a `Commit` is. -/
def commitObj (c : Commit) : GitObject :=
  { type := pystr "commit", content := Commit.serializeCommit c }

/-- Accumulator of `Commit.from_content`'s header loop.  `timestamp` stays
`none` until an `author` line assigns it (a `NameError` at the end otherwise). -/
structure ParseAcc where
  tree : Option PyStr := none
  parents : List PyStr := []
  author : Option PyStr := none
  committer : Option PyStr := none
  timestamp : Option Int := none
  deriving DecidableEq

/-- The `for i, line in enumerate(lines)` loop of `Commit.from_content`: the
`elif` chain in source order, `break` on the first empty line.  `none` models
a raised exception (failed indexing of `author_parts[1]` or `int()`). -/
def parseLoop : ParseAcc → List PyStr → Option ParseAcc
  | acc, [] => some acc
  | acc, line :: rest =>
    if pyStartsWith treeTag line then
      parseLoop { acc with tree := some (line.drop 5) } rest
    else if pyStartsWith parentTag line then
      parseLoop { acc with parents := acc.parents ++ [line.drop 7] } rest
    else if pyStartsWith authorTag line then
      match pyRsplit 32 2 (line.drop 7) with
      | a :: t :: _ =>
        match pyIntParse t with
        | some ts => parseLoop { acc with author := some a, timestamp := some ts } rest
        | none => none
      | _ => none
    else if pyStartsWith committerTag line then
      match pyRsplit 32 2 (line.drop 10) with
      | c :: _ => parseLoop { acc with committer := some c } rest
      | [] => none
    else if line = [] then some acc
    else parseLoop acc rest

/-- `Commit.from_content`: split into lines, run the header loop, then build
the message.  The source assigns the dead variable `message_starts = i+1` and
never updates `message_start`, which stays `0`, so the message is
`"\n".join(lines[0:])` — the entire decoded content. -/
def Commit.fromContent (content : Bytes) (now : Int) : Option Commit :=
  let lines := pySplit 10 content
  match parseLoop {} lines with
  | none => none
  | some acc =>
    match acc.timestamp with
    | none => none
    | some ts =>
      let message := pyJoin 10 (lines.drop 0)
      some (mkCommit acc.tree acc.parents acc.author acc.committer message (some ts) now)

/-- The object store on disk: hex hash to the written (compressed) bytes. -/
abbrev Store := List (PyStr × Bytes)

/-- `Repository.store_object`: hash, then write only when no file with that
hash exists yet. -/
def storeObject (sha1 : Bytes → PyStr) (compress : Bytes → Bytes) (st : Store)
    (o : GitObject) : PyStr × Store :=
  let h := GitObject.hash sha1 o
  if dictHas st h then (h, st) else (h, st ++ [(h, GitObject.serialize compress o)])

/-- `Repository.load_object`: `FileNotFoundError` when absent, otherwise
deserialize the file's bytes. -/
def loadObject (decompress : Bytes → Bytes) (st : Store) (h : PyStr) : Option GitObject :=
  match dictGet st h with
  | none => none
  | some bytes => GitObject.deserialize decompress bytes

/-- The nested dictionary built by `create_tree_from_index`'s partition loop:
a value is either a blob hash (str) or a sub-dictionary (dict). -/
inductive Node : Type where
  | leaf : PyStr → Node
  | dir : List (PyStr × Node) → Node

/-- The inner `for part in parts[1:-1]` navigation plus the final
`current[parts[-1]] = blob_hash` assignment, as a functional insert.  When an
intermediate segment already maps to a blob hash (a str), Python raises
`TypeError` on the subsequent item assignment; no claim exercises such an
index and the model descends into a fresh dict there. -/
def insertParts : List (PyStr × Node) → List PyStr → PyStr → List (PyStr × Node)
  | d, [last], h => dictSet d last (Node.leaf h)
  | d, part :: rest, h =>
    let sub : List (PyStr × Node) :=
      match dictGet d part with
      | some (Node.dir ch) => ch
      | _ => []
    dictSet d part (Node.dir (insertParts sub rest h))
  | d, [], _ => d

/-- One iteration of the partition loop of `create_tree_from_index`:
single-segment paths go to `files`, multi-segment paths are inserted into the
nested `dirs` dictionary under their first segment. -/
def partitionStep (fd : List (PyStr × PyStr) × List (PyStr × Node)) (item : PyStr × PyStr) :
    List (PyStr × PyStr) × List (PyStr × Node) :=
  match pySplit 47 item.1 with
  | [single] => (dictSet fd.1 single item.2, fd.2)
  | dirName :: rest =>
    let cur : List (PyStr × Node) :=
      match dictGet fd.2 dirName with
      | some (Node.dir ch) => ch
      | _ => []
    (fd.1, dictSet fd.2 dirName (Node.dir (insertParts cur rest item.2)))
  | [] => fd

/-- The partition loop over the whole index. -/
def partitionIndex (index : List (PyStr × PyStr)) :
    List (PyStr × PyStr) × List (PyStr × Node) :=
  index.foldl partitionStep ([], [])

/-- `root_entries = {**files}` followed by inserting every top-level directory. -/
def rootEntriesOf (fd : List (PyStr × PyStr) × List (PyStr × Node)) : List (PyStr × Node) :=
  fd.2.foldl (fun acc kv => dictSet acc kv.1 kv.2) (fd.1.map fun kv => (kv.1, Node.leaf kv.2))

/-- The inner `create_tree_recursive` of `create_tree_from_index`, exactly as
written: `tree = Tree()`, then a `for name, blob_hash in entries_dict.items()`
loop whose body ends in `return self.store_object(tree)` — so only the FIRST
item is ever processed and the function returns `None` (`none`) on an empty
dictionary.  In the `dict` branch the subtree is built (and stored) first;
`(…).getD []` renders the unreachable `subtree_hash = None` case, where Python
would raise inside `bytes.fromhex`. -/
def createTreeRecursive (sha1 : Bytes → PyStr) (compress : Bytes → Bytes) :
    Store → List (PyStr × Node) → Option PyStr × Store
  | store, [] => (none, store)
  | store, (name, Node.leaf h) :: _ =>
    let r := storeObject sha1 compress store (treeObj [(pystr "100644", name, h)])
    (some r.1, r.2)
  | store, (name, Node.dir ch) :: _ =>
    let sub := createTreeRecursive sha1 compress store ch
    let r := storeObject sha1 compress sub.2 (treeObj [(pystr "40000", name, sub.1.getD [])])
    (some r.1, r.2)

/-- `Repository.create_tree_from_index`: an empty index stores an empty tree;
otherwise partition the staged paths and run the (buggy) recursion on the root
entries. -/
def createTreeFromIndex (sha1 : Bytes → PyStr) (compress : Bytes → Bytes) (store : Store)
    (index : List (PyStr × PyStr)) : Option PyStr × Store :=
  if index.isEmpty then
    let r := storeObject sha1 compress store (treeObj [])
    (some r.1, r.2)
  else
    createTreeRecursive sha1 compress store (rootEntriesOf (partitionIndex index))

/-- The persisted repository state: object store, staging index (`index` file,
a path → blob-hash dict), branch-ref files (name → file text) and the optional
`HEAD` file text. -/
structure RepoState where
  store : Store
  index : List (PyStr × PyStr)
  refs : List (PyStr × PyStr)
  head : Option PyStr
  deriving DecidableEq

/-- String literal `"ref: refs/heads/"` (16 characters). -/
def refHeadsTag : PyStr := pystr "ref: refs/heads/"

/-- `Repository.init`'s resulting state: empty store, empty index (`{}`), no
branch refs yet, `HEAD` containing `"ref: refs/heads/main\n"`. -/
def initState : RepoState :=
  { store := [], index := [], refs := [], head := some (pystr "ref: refs/heads/main\n") }

/-- `Repository.get_current_branch`: `"master"` when the `HEAD` file does not
exist; the suffix after `"ref: refs/heads/"` when attached; the literal
`"HEAD"` for a detached head. -/
def getCurrentBranch (head : Option PyStr) : PyStr :=
  match head with
  | none => pystr "master"
  | some c =>
    let c' := pyStrip c
    if pyStartsWith refHeadsTag c' then c'.drop 16 else pystr "HEAD"

/-- `Repository.get_branch_commit`: stripped branch-ref file text, `none` when
the file does not exist. -/
def getBranchCommit (refs : List (PyStr × PyStr)) (branch : PyStr) : Option PyStr :=
  (dictGet refs branch).map pyStrip

/-- `Repository.set_branch_commit`: write `commit_hash + "\n"`. -/
def setBranchCommit (refs : List (PyStr × PyStr)) (branch : PyStr) (commitHash : PyStr) :
    List (PyStr × PyStr) :=
  dictSet refs branch (commitHash ++ [10])

/-- `Repository.commit`, step by step in source order: build the tree from the
index (which stores objects), resolve branch and parent, re-load the index and
return `None` if it is empty, compare against the parent's tree hash when a
parent exists, else create and store the commit, move the branch ref and clear
the index.  The outer `Option` models uncaught exceptions; the inner
`Option PyStr` is the Python return value (`None` for "nothing to commit"). -/
def commitRun (sha1 : Bytes → PyStr) (compress decompress : Bytes → Bytes) (now : Int)
    (s : RepoState) (message author : PyStr) : Option (Option PyStr × RepoState) :=
  let tb := createTreeFromIndex sha1 compress s.store s.index
  let treeHash := tb.1
  let store1 := tb.2
  let branch := getCurrentBranch s.head
  let parent := getBranchCommit s.refs branch
  let pt : Bool :=
    match parent with
    | some p => !p.isEmpty
    | none => false
  let parentHashes := if pt then [parent.getD []] else []
  if s.index.isEmpty then some (none, { s with store := store1 })
  else if pt then
    match loadObject decompress store1 (parent.getD []) with
    | none => none
    | some pobj =>
      match Commit.fromContent pobj.content now with
      | none => none
      | some pc =>
        if treeHash = pc.tree_hash then some (none, { s with store := store1 })
        else
          let c := mkCommit treeHash parentHashes (some author) (some author) message none now
          let r := storeObject sha1 compress store1 (commitObj c)
          some (some r.1,
            { store := r.2, index := [], refs := setBranchCommit s.refs branch r.1,
              head := s.head })
  else
    let c := mkCommit treeHash parentHashes (some author) (some author) message none now
    let r := storeObject sha1 compress store1 (commitObj c)
    some (some r.1,
      { store := r.2, index := [], refs := setBranchCommit s.refs branch r.1,
        head := s.head })

/-- One iteration of `Repository.add_directory`'s file loop.  The source
condition is `if ".pygit" or ".git" in file_path.parts: continue` — by Python
precedence this is `(".pygit") or (".git" in parts)`, and the nonempty string
`".pygit"` is truthy, so the condition always holds and every file is skipped.
The `else` branch transcribes the unreachable store-and-index code. -/
def addDirStep (sha1 : Bytes → PyStr) (compress : Bytes → Bytes)
    (acc : List (PyStr × PyStr) × Store × Nat) (f : List PyStr × Bytes) :
    List (PyStr × PyStr) × Store × Nat :=
  if pyTruthy (pystr ".pygit") || decide (pystr ".git" ∈ f.1) then acc
  else
    let r := storeObject sha1 compress acc.2.1 (blobObj f.2)
    (dictSet acc.1 (pyJoin 47 f.1) r.1, r.2, acc.2.2 + 1)

/-- `Repository.add_directory` over the regular files found by
`full_path.rglob("*")` (each given as repository-relative path segments plus
content; the filesystem walk itself is a collaborator outside the core):
fold the loop, then `save_index`. -/
def addDirectory (sha1 : Bytes → PyStr) (compress : Bytes → Bytes) (s : RepoState)
    (walked : List (List PyStr × Bytes)) : RepoState × Nat :=
  let r := walked.foldl (addDirStep sha1 compress) (s.index, s.store, 0)
  ({ s with index := r.1, store := r.2.1 }, r.2.2)

/-- A concrete stand-in digest for witnesses: the identity on bytes
(the model's theorems hold for every digest function). -/
def idDigest (b : Bytes) : PyStr := b

/-- A concrete constant digest for witnesses. -/
def constDigest (_ : Bytes) : PyStr := [104]

/-- A concrete lossless (identity) compressor for witnesses. -/
def idCodec (b : Bytes) : Bytes := b

/-- The staging index `{"a.txt": "aa", "dir/b.txt": "bb"}` of claim C1. -/
def idxC1 : List (PyStr × PyStr) :=
  [(pystr "a.txt", pystr "aa"), (pystr "dir/b.txt", pystr "bb")]

/-- The single-entry root tree that the buggy recursion actually builds on
`idxC1`. -/
def rootTreeC1 : GitObject := treeObj [(pystr "100644", pystr "a.txt", pystr "aa")]

/-- A concrete file entry for the C5 witness. -/
def entC5a : Entry := (pystr "100644", pystr "a.txt", pystr "aa")

/-- A concrete subtree entry for the C5 witness. -/
def entC5b : Entry := (pystr "40000", pystr "dir", pystr "bb")

/-- A concrete commit of claim C7: tree `"ab"`, no parents, message `"first"`. -/
def commitC7 : Commit :=
  { tree_hash := some (pystr "ab"), parent_hashes := [],
    author := some (pystr "A <a@b>"), committer := some (pystr "A <a@b>"),
    message := pystr "first", timestamp := 5 }

/-- A concrete one-parent commit for the C8 witness. -/
def commitC8 : Commit :=
  { tree_hash := some (pystr "ab"), parent_hashes := [pystr "p1"],
    author := some (pystr "A"), committer := some (pystr "A"),
    message := pystr "m", timestamp := 7 }

/-- A detached-HEAD repository state (raw hash `"abc"` in `HEAD`) with one
staged file, for the C10 witness. -/
def sC10 : RepoState :=
  { store := [], index := [(pystr "x", pystr "aa")], refs := [],
    head := some (pystr "abc") }

/-- The state `commit` produces from `sC10` under the constant digest. -/
def sC10final : RepoState :=
  { store := [([104], GitObject.serialize idCodec (treeObj [(pystr "100644", pystr "x", pystr "aa")]))],
    index := [], refs := setBranchCommit [] (pystr "HEAD") [104],
    head := some (pystr "abc") }

/-!  Helper lemmas about the byte-string order used by `sorted`. -/

theorem bytesLe_cons (x y : Nat) (as bs : List Nat) :
    bytesLe (x :: as) (y :: bs) = (decide (x < y) || (decide (x = y) && bytesLe as bs)) := by
  by_cases h : x < y <;> by_cases h2 : x = y <;> simp [bytesLe, h, h2]

theorem bytesLe_total : ∀ a b : List Nat, bytesLe a b = true ∨ bytesLe b a = true := by
  intro a
  induction a with
  | nil => intro b; left; rfl
  | cons x as ih =>
    intro b
    cases b with
    | nil => right; rfl
    | cons y bs =>
      rw [bytesLe_cons, bytesLe_cons]
      rcases Nat.lt_trichotomy x y with h | h | h
      · left; simp [h]
      · subst h
        rcases ih bs with h2 | h2
        · left; simp [h2]
        · right; simp [h2]
      · right; simp [h]

theorem bytesLe_trans : ∀ a b c : List Nat,
    bytesLe a b = true → bytesLe b c = true → bytesLe a c = true := by
  intro a
  induction a with
  | nil => intro b c _ _; rfl
  | cons x as ih =>
    intro b c hab hbc
    cases b with
    | nil => simp [bytesLe] at hab
    | cons y bs =>
      cases c with
      | nil => simp [bytesLe] at hbc
      | cons z cs =>
        rw [bytesLe_cons] at hab hbc ⊢
        simp only [Bool.or_eq_true, Bool.and_eq_true, decide_eq_true_eq] at hab hbc ⊢
        rcases hab with h1 | ⟨h1, h1b⟩
        · rcases hbc with h2 | ⟨h2, _⟩
          · left; omega
          · left; omega
        · rcases hbc with h2 | ⟨h2, h2b⟩
          · left; omega
          · right; exact ⟨by omega, ih bs cs h1b h2b⟩

theorem bytesLe_antisymm : ∀ a b : List Nat,
    bytesLe a b = true → bytesLe b a = true → a = b := by
  intro a
  induction a with
  | nil =>
    intro b _ hba
    cases b with
    | nil => rfl
    | cons y bs => simp [bytesLe] at hba
  | cons x as ih =>
    intro b hab hba
    cases b with
    | nil => simp [bytesLe] at hab
    | cons y bs =>
      rw [bytesLe_cons] at hab hba
      simp only [Bool.or_eq_true, Bool.and_eq_true, decide_eq_true_eq] at hab hba
      rcases hab with h1 | ⟨h1, h1b⟩
      · rcases hba with h2 | ⟨h2, _⟩
        · omega
        · omega
      · rcases hba with h2 | ⟨h2, h2b⟩
        · omega
        · rw [h1, ih bs h1b h2b]

theorem lexLe_total {α β : Type} [DecidableEq α] (la : α → α → Bool) (lb : β → β → Bool)
    (hla : ∀ a b, la a b = true ∨ la b a = true)
    (hlb : ∀ a b, lb a b = true ∨ lb b a = true) :
    ∀ x y : α × β, lexLe la lb x y = true ∨ lexLe la lb y x = true := by
  intro x y
  by_cases h : x.1 = y.1
  · rw [lexLe, lexLe, if_pos h, if_pos h.symm]
    exact hlb x.2 y.2
  · rw [lexLe, lexLe, if_neg h, if_neg fun hh => h hh.symm]
    exact hla x.1 y.1

theorem lexLe_trans {α β : Type} [DecidableEq α] (la : α → α → Bool) (lb : β → β → Bool)
    (hlat : ∀ a b c, la a b = true → la b c = true → la a c = true)
    (hlaa : ∀ a b, la a b = true → la b a = true → a = b)
    (hlbt : ∀ a b c, lb a b = true → lb b c = true → lb a c = true) :
    ∀ x y z : α × β, lexLe la lb x y = true → lexLe la lb y z = true →
      lexLe la lb x z = true := by
  intro x y z hxy hyz
  rw [lexLe] at hxy hyz ⊢
  by_cases h1 : x.1 = y.1
  · rw [if_pos h1] at hxy
    by_cases h2 : y.1 = z.1
    · rw [if_pos h2] at hyz
      rw [if_pos (h1.trans h2)]
      exact hlbt _ _ _ hxy hyz
    · rw [if_neg h2] at hyz
      rw [if_neg (h1 ▸ h2), h1]
      exact hyz
  · rw [if_neg h1] at hxy
    by_cases h2 : y.1 = z.1
    · rw [if_neg (h2 ▸ h1), ← h2]
      exact hxy
    · rw [if_neg h2] at hyz
      have hxz : la x.1 z.1 = true := hlat _ _ _ hxy hyz
      by_cases h3 : x.1 = z.1
      · exact absurd (hlaa _ _ hxy (h3 ▸ hyz)) h1
      · rw [if_neg h3]
        exact hxz

theorem lexLe_antisymm {α β : Type} [DecidableEq α] (la : α → α → Bool) (lb : β → β → Bool)
    (hlaa : ∀ a b, la a b = true → la b a = true → a = b)
    (hlba : ∀ a b, lb a b = true → lb b a = true → a = b) :
    ∀ x y : α × β, lexLe la lb x y = true → lexLe la lb y x = true → x = y := by
  intro x y hxy hyx
  rw [lexLe] at hxy hyx
  by_cases h : x.1 = y.1
  · rw [if_pos h] at hxy
    rw [if_pos h.symm] at hyx
    exact Prod.ext h (hlba _ _ hxy hyx)
  · rw [if_neg h] at hxy
    rw [if_neg fun hh => h hh.symm] at hyx
    exact absurd (hlaa _ _ hxy hyx) h

instance : IsTotal Entry entryLeP :=
  ⟨fun a b =>
    lexLe_total bytesLe (lexLe bytesLe bytesLe) bytesLe_total
      (lexLe_total bytesLe bytesLe bytesLe_total bytesLe_total) a b⟩

instance : IsTrans Entry entryLeP :=
  ⟨fun a b c =>
    lexLe_trans bytesLe (lexLe bytesLe bytesLe) bytesLe_trans bytesLe_antisymm
      (lexLe_trans bytesLe bytesLe bytesLe_trans bytesLe_antisymm bytesLe_trans) a b c⟩

instance : IsAntisymm Entry entryLeP :=
  ⟨fun a b =>
    lexLe_antisymm bytesLe (lexLe bytesLe bytesLe) bytesLe_antisymm
      (lexLe_antisymm bytesLe bytesLe bytesLe_antisymm bytesLe_antisymm) a b⟩

theorem sortEntries_eq_of_perm {l1 l2 : List Entry} (h : List.Perm l1 l2) :
    sortEntries l1 = sortEntries l2 :=
  List.eq_of_perm_of_sorted
    (((List.perm_insertionSort entryLeP l1).trans h).trans
      (List.perm_insertionSort entryLeP l2).symm)
    (List.sorted_insertionSort entryLeP l1) (List.sorted_insertionSort entryLeP l2)

/-- C5: for any two lists of tree entries that are permutations of each other
(the same entry set given in different construction orders), `Tree` serializes
them identically — `_serialize_entries` sorts by the full `(mode, name, hash)`
tuple order, which is total and antisymmetric — and therefore the resulting
tree objects hash identically under any digest function. -/
theorem tree_serialization_order_independent (sha1 : Bytes → PyStr) (l1 l2 : List Entry)
    (h : List.Perm l1 l2) :
    serializeEntries l1 = serializeEntries l2 ∧
      GitObject.hash sha1 (treeObj l1) = GitObject.hash sha1 (treeObj l2) := by
  have hse : serializeEntries l1 = serializeEntries l2 := by
    rw [serializeEntries, serializeEntries, sortEntries_eq_of_perm h]
  have hobj : treeObj l1 = treeObj l2 := by rw [treeObj, treeObj, hse]
  exact ⟨hse, by rw [hobj]⟩

/-- Witness for C5: two concrete entries in both orders serialize and hash
identically. -/
theorem tree_serialization_order_independent_check :
    serializeEntries [entC5a, entC5b] = serializeEntries [entC5b, entC5a] ∧
      GitObject.hash idDigest (treeObj [entC5a, entC5b])
        = GitObject.hash idDigest (treeObj [entC5b, entC5a]) :=
  tree_serialization_order_independent idDigest _ _ (List.Perm.swap entC5b entC5a [])

/-- C6 counterexample: constructing a `Tree` whose two entries share the name
`"a.txt"` with diverging hashes `"aa"` and `"bb"` does not fail — `__init__`
and `add_entry` perform no validation whatsoever — and the serialized content
simply contains both entries. -/
theorem tree_duplicate_names_not_rejected :
    (treeObj [(pystr "100644", pystr "a.txt", pystr "aa"),
        (pystr "100644", pystr "a.txt", pystr "bb")]).content
      = entryBytes (pystr "100644", pystr "a.txt", pystr "aa")
          ++ entryBytes (pystr "100644", pystr "a.txt", pystr "bb") := by decide

/-- C6 (amended): `Tree` construction and `add_entry` perform no duplicate-name
validation at all; two entries sharing a name with diverging hashes are both
accepted, both kept, and both serialized (construction is total — there is no
failure path in `Tree.__init__`/`add_entry`). -/
theorem tree_keeps_duplicate_names (mode name h1 h2 : PyStr) :
    (sortEntries [(mode, name, h1), (mode, name, h2)]).length = 2 ∧
    (mode, name, h1) ∈ sortEntries [(mode, name, h1), (mode, name, h2)] ∧
    (mode, name, h2) ∈ sortEntries [(mode, name, h1), (mode, name, h2)] ∧
    addEntry [(mode, name, h1)] mode name h2 = [(mode, name, h1), (mode, name, h2)] := by
  refine ⟨?_, ?_, ?_, rfl⟩
  · rw [sortEntries, List.length_insertionSort]
    rfl
  · rw [sortEntries, List.mem_insertionSort]
    exact List.mem_cons_self _ _
  · rw [sortEntries, List.mem_insertionSort]
    exact List.mem_cons_of_mem _ (List.mem_cons_self _ _)

/-!  Association-list lemmas for the object store. -/

theorem dictGet_append_none {α : Type} (d : List (PyStr × α)) (k : PyStr) (v : α)
    (h : dictGet d k = none) : dictGet (d ++ [(k, v)]) k = some v := by
  induction d with
  | nil => simp [dictGet]
  | cons kv rest ih =>
    obtain ⟨k', w⟩ := kv
    rw [dictGet] at h
    rw [List.cons_append, dictGet]
    by_cases hk : k' = k
    · rw [if_pos hk] at h
      exact absurd h (by simp)
    · rw [if_neg hk] at h
      rw [if_neg hk]
      exact ih h

/-- C4: storing a `Blob` of any content twice yields the same hash both times,
the second store is a no-op on the store (deduplication: the object file
already exists), the object is on disk after the first store, and when the
hash was fresh the first store appends exactly one object file. -/
theorem store_blob_idempotent (sha1 : Bytes → PyStr) (compress : Bytes → Bytes)
    (st : Store) (C : Bytes) :
    (storeObject sha1 compress (storeObject sha1 compress st (blobObj C)).2 (blobObj C)).1
        = (storeObject sha1 compress st (blobObj C)).1 ∧
    (storeObject sha1 compress (storeObject sha1 compress st (blobObj C)).2 (blobObj C)).2
        = (storeObject sha1 compress st (blobObj C)).2 ∧
    dictHas (storeObject sha1 compress st (blobObj C)).2
        (storeObject sha1 compress st (blobObj C)).1 = true ∧
    (dictHas st (GitObject.hash sha1 (blobObj C)) = false →
      (storeObject sha1 compress st (blobObj C)).2
        = st ++ [(GitObject.hash sha1 (blobObj C), GitObject.serialize compress (blobObj C))]) ∧
    (dictHas st (GitObject.hash sha1 (blobObj C)) = true →
      (storeObject sha1 compress st (blobObj C)).2 = st) := by
  by_cases hh : dictHas st (GitObject.hash sha1 (blobObj C)) = true
  · simp [storeObject, hh]
  · have hn : dictGet st (GitObject.hash sha1 (blobObj C)) = none := by
      rw [dictHas] at hh
      exact Option.not_isSome_iff_eq_none.mp (by simpa using hh)
    have hs : dictHas (st ++ [(GitObject.hash sha1 (blobObj C),
        GitObject.serialize compress (blobObj C))]) (GitObject.hash sha1 (blobObj C)) = true := by
      rw [dictHas, dictGet_append_none _ _ _ hn]
      rfl
    simp [storeObject, hh, hs]

/-- Witness for C4: a concrete blob `"hi"` into an empty store — fresh hash,
exactly one appended file, and the second store is a no-op. -/
theorem store_blob_idempotent_check :
    dictHas ([] : Store) (GitObject.hash idDigest (blobObj (pystr "hi"))) = false ∧
    (storeObject idDigest idCodec [] (blobObj (pystr "hi"))).2
      = [] ++ [(GitObject.hash idDigest (blobObj (pystr "hi")),
          GitObject.serialize idCodec (blobObj (pystr "hi")))] ∧
    (storeObject idDigest idCodec
        (storeObject idDigest idCodec [] (blobObj (pystr "hi"))).2 (blobObj (pystr "hi"))).2
      = (storeObject idDigest idCodec [] (blobObj (pystr "hi"))).2 :=
  ⟨by decide,
    (store_blob_idempotent idDigest idCodec [] (pystr "hi")).2.2.2.1 (by decide),
    (store_blob_idempotent idDigest idCodec [] (pystr "hi")).2.1⟩

/-!  Claim C9: the stager. -/

theorem addDirStep_skip (sha1 : Bytes → PyStr) (compress : Bytes → Bytes)
    (acc : List (PyStr × PyStr) × Store × Nat) (f : List PyStr × Bytes) :
    addDirStep sha1 compress acc f = acc := rfl

/-- C9: `add_directory` stores and records NOTHING — the loop's skip condition
`".pygit" or ".git" in file_path.parts` is always truthy (the nonempty string
literal `".pygit"` short-circuits the `or`), so every regular file is skipped:
for every repository state and every walked file list the index, the store and
the whole state are unchanged and the added count is 0.  The claim (every
regular file stored as a blob and recorded in the index) describes the
intended behaviour; the code never does it for any file. -/
theorem add_directory_adds_nothing (sha1 : Bytes → PyStr) (compress : Bytes → Bytes)
    (s : RepoState) (walked : List (List PyStr × Bytes)) :
    addDirectory sha1 compress s walked = (s, 0) := by
  rw [addDirectory]
  have hf : ∀ acc, walked.foldl (addDirStep sha1 compress) acc = acc := by
    intro acc
    induction walked generalizing acc with
    | nil => rfl
    | cons f rest ih => rw [List.foldl_cons, addDirStep_skip]; exact ih _
  rw [hf]

/-!  Claim C1: the tree builder drops every sibling after the first. -/

/-- C1: on the staging index `{"a.txt": "aa", "dir/b.txt": "bb"}` the tree
builder stores exactly ONE object — a root tree containing only the single
entry `a.txt` — instead of a two-entry root plus a stored subtree for `dir`:
the inner recursion's `return self.store_object(tree)` sits inside the `for`
loop, so every level is cut off after its first entry and the `dir` subtree is
never built or stored. -/
theorem create_tree_drops_siblings :
    createTreeFromIndex idDigest idCodec [] idxC1 =
      (some (GitObject.hash idDigest rootTreeC1),
        [(GitObject.hash idDigest rootTreeC1, GitObject.serialize idCodec rootTreeC1)]) := by
  have h1 : rootEntriesOf (partitionIndex idxC1) =
      [(pystr "a.txt", Node.leaf (pystr "aa")),
        (pystr "dir", Node.dir [(pystr "b.txt", Node.leaf (pystr "bb"))])] := rfl
  rw [createTreeFromIndex]
  simp only [show idxC1.isEmpty = false from rfl, Bool.false_eq_true, if_false, h1]
  rw [createTreeRecursive]
  decide

/-!  String-primitive lemmas: split, join, find, slicing, decimal digits. -/

theorem pySplit_ne_nil (sep : Nat) (s : List Nat) : pySplit sep s ≠ [] := by
  cases s with
  | nil => simp [pySplit]
  | cons c rest =>
    rw [pySplit]
    cases h : pySplit sep rest with
    | nil => simp
    | cons g gs => by_cases hc : c = sep <;> simp [hc]

theorem pySplit_of_not_mem {sep : Nat} {s : List Nat} (h : sep ∉ s) : pySplit sep s = [s] := by
  induction s with
  | nil => rfl
  | cons c rest ih =>
    have hc : c ≠ sep := fun hh => h (hh ▸ List.mem_cons_self c rest)
    have h2 : sep ∉ rest := fun hh => h (List.mem_cons_of_mem _ hh)
    rw [pySplit, ih h2]
    simp [hc]

theorem pySplit_append_cons (sep : Nat) {x : List Nat} (y : List Nat) (h : sep ∉ x) :
    pySplit sep (x ++ sep :: y) = x :: pySplit sep y := by
  induction x with
  | nil =>
    rw [List.nil_append, pySplit]
    cases hy : pySplit sep y with
    | nil => exact absurd hy (pySplit_ne_nil sep y)
    | cons g gs => simp
  | cons c rest ih =>
    have hc : c ≠ sep := fun hh => h (hh ▸ List.mem_cons_self c rest)
    have h2 : sep ∉ rest := fun hh => h (List.mem_cons_of_mem _ hh)
    rw [List.cons_append, pySplit, ih h2]
    simp [hc]

theorem pyJoin_cons (sep : Nat) (x : List Nat) {rest : List (List Nat)} (h : rest ≠ []) :
    pyJoin sep (x :: rest) = x ++ sep :: pyJoin sep rest := by
  cases rest with
  | nil => exact absurd rfl h
  | cons r rs => rfl

theorem pySplit_join (sep : Nat) (bs : List (List Nat)) (tail : List Nat)
    (h : ∀ b ∈ bs, sep ∉ b) :
    pySplit sep (pyJoin sep (bs ++ [tail])) = bs ++ pySplit sep tail := by
  induction bs with
  | nil => simp [pyJoin]
  | cons b bs' ih =>
    rw [List.cons_append, pyJoin_cons sep b (by simp),
      pySplit_append_cons sep _ (h b (List.mem_cons_self _ _)),
      ih fun q hq => h q (List.mem_cons_of_mem _ hq)]
    rfl

theorem pyFind_append (b : Nat) {x : List Nat} (y : List Nat) (h : b ∉ x) :
    pyFind (x ++ b :: y) b = (x.length : Int) := by
  induction x with
  | nil => simp [pyFind]
  | cons c rest ih =>
    have hc : c ≠ b := fun hh => h (hh ▸ List.mem_cons_self c rest)
    have h2 : b ∉ rest := fun hh => h (List.mem_cons_of_mem _ hh)
    rw [List.cons_append, pyFind, if_neg hc]
    simp only [ih h2]
    rw [if_neg (by omega)]
    simp

theorem pySliceTo_append (x y : List Nat) : pySliceTo (x ++ y) (x.length : Int) = x := by
  rw [pySliceTo, if_neg (by omega)]
  rw [show ((x.length : Int)).toNat = x.length by omega]
  exact List.take_left x y

theorem pySliceFrom_append (x y : List Nat) (b : Nat) :
    pySliceFrom (x ++ b :: y) ((x.length : Int) + 1) = y := by
  rw [pySliceFrom, if_neg (by omega)]
  rw [show ((x.length : Int) + 1).toNat = x.length + 1 by omega]
  rw [show x ++ b :: y = (x ++ [b]) ++ y by simp]
  rw [show x.length + 1 = (x ++ [b]).length by simp]
  exact List.drop_left _ _

theorem natStrGo_digits : ∀ fuel n d : Nat, d ∈ natStrGo fuel n → 48 ≤ d ∧ d ≤ 57 := by
  intro fuel
  induction fuel with
  | zero => intro n d h; simp [natStrGo] at h
  | succ f ih =>
    intro n d h
    rw [natStrGo] at h
    by_cases h10 : n < 10
    · rw [if_pos h10] at h
      simp at h
      omega
    · rw [if_neg h10] at h
      rw [List.mem_append] at h
      rcases h with h | h
      · exact ih _ _ h
      · simp at h
        omega

theorem natStr_digits (n d : Nat) (h : d ∈ natStr n) : 48 ≤ d ∧ d ≤ 57 :=
  natStrGo_digits _ _ _ h

theorem natStr_no_nul (n : Nat) : (0 : Nat) ∉ natStr n := fun h => by
  have := natStr_digits n 0 h; omega

theorem natStr_no_space (n : Nat) : (32 : Nat) ∉ natStr n := fun h => by
  have := natStr_digits n 32 h; omega

theorem natStrGo_ne_nil (fuel n : Nat) (h : 0 < fuel) : natStrGo fuel n ≠ [] := by
  cases fuel with
  | zero => omega
  | succ f =>
    rw [natStrGo]
    by_cases h10 : n < 10 <;> simp [h10]

theorem digitsValGo_append : ∀ (a b : List Nat) (acc : Nat),
    digitsValGo (a ++ b) acc =
      match digitsValGo a acc with
      | some acc2 => digitsValGo b acc2
      | none => none := by
  intro a
  induction a with
  | nil => intro b acc; rfl
  | cons c rest ih =>
    intro b acc
    rw [List.cons_append]
    by_cases hd : 48 ≤ c ∧ c ≤ 57
    · simp only [digitsValGo, if_pos hd, ih]
    · simp only [digitsValGo, if_neg hd]

theorem natStrGo_parse : ∀ fuel n : Nat, n < fuel → digitsValGo (natStrGo fuel n) 0 = some n := by
  intro fuel
  induction fuel with
  | zero => intro n h; omega
  | succ f ih =>
    intro n h
    rw [natStrGo]
    by_cases h10 : n < 10
    · rw [if_pos h10, digitsValGo, if_pos (by omega), digitsValGo]
      congr 1
      omega
    · rw [if_neg h10, digitsValGo_append, ih (n / 10) (by omega)]
      simp only [digitsValGo, if_pos (show 48 ≤ 48 + n % 10 ∧ 48 + n % 10 ≤ 57 by omega)]
      congr 1
      omega

theorem natStr_parse (n : Nat) : digitsValGo (natStr n) 0 = some n :=
  natStrGo_parse _ _ (by omega)

theorem pyIntParse_natStr (n : Nat) : pyIntParse (natStr n) = some (n : Int) := by
  have hne : natStr n ≠ [] := natStrGo_ne_nil _ _ (by omega)
  cases hns : natStr n with
  | nil => exact absurd hns hne
  | cons c cs =>
    have hc : c ≠ 45 := fun hh => by
      have := natStr_digits n 45 (by rw [hns, hh]; exact List.mem_cons_self _ _)
      omega
    rw [pyIntParse, if_neg hc, ← hns, natStr_parse]
    rfl

theorem pyIntParse_intStr (i : Int) : pyIntParse (intStr i) = some i := by
  rw [intStr]
  by_cases h : i < 0
  · rw [if_pos h]
    have hne : natStr i.natAbs ≠ [] := natStrGo_ne_nil _ _ (by omega)
    rw [pyIntParse, if_pos rfl, if_neg hne, natStr_parse]
    show some (-(i.natAbs : Int)) = some i
    rw [Int.ofNat_natAbs_of_nonpos (le_of_lt h), neg_neg]
  · rw [if_neg h, pyIntParse_natStr]
    congr 1
    omega

theorem intStr_mem (i : Int) (d : Nat) (h : d ∈ intStr i) : d = 45 ∨ (48 ≤ d ∧ d ≤ 57) := by
  rw [intStr] at h
  by_cases hi : i < 0
  · rw [if_pos hi] at h
    rcases List.mem_cons.mp h with h | h
    · left; exact h
    · right; exact natStr_digits _ _ h
  · rw [if_neg hi] at h
    right
    exact natStr_digits _ _ h

theorem intStr_no_nl (i : Int) : (10 : Nat) ∉ intStr i := fun h => by
  rcases intStr_mem i 10 h with h | h <;> omega

theorem intStr_no_space (i : Int) : (32 : Nat) ∉ intStr i := fun h => by
  rcases intStr_mem i 32 h with h | h <;> omega

/-!  Claim C3: deserialization performs no length validation. -/

/-- C3 (amended): `GitObject.deserialize` decompresses and parses the type
from the header before the first NUL byte, but the declared length is bound to
`_` and IGNORED — no validation of the remaining byte count happens, so any
payload of the shape `type SP digits NUL content` deserializes successfully to
that type and content, whether or not the declared length matches the content
length; in particular a truncated stored object is returned with its partial
content instead of failing with a corruption error. -/
theorem deserialize_ignores_length (decompress : Bytes → Bytes) (data : Bytes)
    (t : PyStr) (n : Nat) (content : Bytes)
    (h0 : (0 : Nat) ∉ t) (h32 : (32 : Nat) ∉ t)
    (hd : decompress data = t ++ [32] ++ natStr n ++ [0] ++ content) :
    GitObject.deserialize decompress data = some { type := t, content := content } := by
  have hx : (0 : Nat) ∉ (t ++ [32]) ++ natStr n := by
    simp only [List.mem_append, List.mem_singleton]
    push_neg
    exact ⟨⟨h0, by omega⟩, natStr_no_nul n⟩
  simp only [GitObject.deserialize]
  rw [hd]
  rw [show t ++ [32] ++ natStr n ++ [0] ++ content
      = ((t ++ [32]) ++ natStr n) ++ 0 :: content by simp]
  rw [pyFind_append 0 _ hx, pySliceTo_append, pySliceFrom_append]
  rw [show (t ++ [32]) ++ natStr n = t ++ 32 :: natStr n by simp]
  rw [pySplit_append_cons 32 _ h32, pySplit_of_not_mem (natStr_no_space n)]

/-- C3 counterexample: deserializing the truncated stored object
`"blob 5" NUL "he"` (declared length 5, only 2 remaining bytes) SUCCEEDS,
returning the partial content `"he"` instead of failing with a corruption
error. -/
theorem deserialize_truncated_succeeds :
    GitObject.deserialize idCodec (pystr "blob 5" ++ [0] ++ pystr "he")
      = some { type := pystr "blob", content := pystr "he" } ∧
    (pystr "he").length = 2 ∧ (2 : Nat) ≠ 5 := by decide

/-- Witness for C3's amended theorem, at the truncated object `"blob 5\0he"`. -/
theorem deserialize_ignores_length_check :
    GitObject.deserialize idCodec (pystr "blob 5" ++ [0] ++ pystr "he")
      = some { type := pystr "blob", content := pystr "he" } :=
  deserialize_ignores_length idCodec _ (pystr "blob") 5 (pystr "he")
    (by decide) (by decide) (by decide)

/-!  Claim C7: the message is never split from the headers. -/

/-- C7: `Commit.from_content` does NOT split the message at the first blank
line — the loop assigns the dead variable `message_starts` while
`message_start` stays `0`, so the parsed message is `"\n".join(lines[0:])`,
the entire commit text (headers included): for the concrete serialized commit
`commitC7` with body `"first"`, the parsed message equals the whole serialized
content and differs from `"first"`. -/
theorem commit_message_not_split :
    (Commit.fromContent (Commit.serializeCommit commitC7) 99).map Commit.message
      = some (Commit.serializeCommit commitC7) ∧
    Commit.serializeCommit commitC7 ≠ pystr "first" := by decide

/-!  Claim C2: the no-op commit paths. -/

/-- C2 counterexample: on a freshly initialized repository (empty store, empty
index) `commit` returns the no-op `None`, but it does NOT abort "without
creating any object": `create_tree_from_index` runs before the empty-index
check and stores the empty tree, so the object store grows from zero to one
object file. -/
theorem commit_noop_stores_tree :
    commitRun idDigest idCodec idCodec 0 initState [] []
      = some (none, { initState with
          store := [(GitObject.hash idDigest (treeObj []),
            GitObject.serialize idCodec (treeObj []))] }) ∧
    initState.store = [] := by
  constructor
  · rfl
  · rfl

/-!  Right-split and header-line lemmas for commit parsing. -/

theorem splitLeftMax_zero (sep : Nat) (s : List Nat) : splitLeftMax sep 0 s = [s] := by
  cases s <;> rfl

theorem splitLeftMax_append_sep (sep k : Nat) {x : List Nat} (y : List Nat) (h : sep ∉ x) :
    splitLeftMax sep (k + 1) (x ++ sep :: y) = x :: splitLeftMax sep k y := by
  induction x with
  | nil => rw [List.nil_append, splitLeftMax, if_pos rfl]
  | cons c rest ih =>
    have hc : c ≠ sep := fun hh => h (hh ▸ List.mem_cons_self c rest)
    have h2 : sep ∉ rest := fun hh => h (List.mem_cons_of_mem _ hh)
    rw [List.cons_append, splitLeftMax, if_neg hc, ih h2]

theorem pyRsplit_three (a t z : List Nat) (ht : (32 : Nat) ∉ t) (hz : (32 : Nat) ∉ z) :
    pyRsplit 32 2 (a ++ [32] ++ t ++ [32] ++ z) = [a, t, z] := by
  have hrev : (a ++ [32] ++ t ++ [32] ++ z).reverse
      = z.reverse ++ 32 :: (t.reverse ++ 32 :: a.reverse) := by
    simp
  rw [pyRsplit, hrev]
  rw [show (2 : Nat) = 1 + 1 from rfl,
    splitLeftMax_append_sep 32 1 _ (by simpa using hz),
    splitLeftMax_append_sep 32 0 _ (by simpa using ht),
    splitLeftMax_zero]
  simp

theorem pyStartsWith_append (p r : List Nat) : pyStartsWith p (p ++ r) = true := by
  induction p with
  | nil => rfl
  | cons c cs ih => simp [pyStartsWith, ih]

theorem drop_treeTag (x : PyStr) : (treeTag ++ x).drop 5 = x := by
  rw [show (5 : Nat) = treeTag.length from rfl]
  exact List.drop_left _ _

theorem drop_parentTag (x : PyStr) : (parentTag ++ x).drop 7 = x := by
  rw [show (7 : Nat) = parentTag.length from rfl]
  exact List.drop_left _ _

theorem drop_authorTag (x : PyStr) : (authorTag ++ x).drop 7 = x := by
  rw [show (7 : Nat) = authorTag.length from rfl]
  exact List.drop_left _ _

theorem drop_committerTag (x : PyStr) : (committerTag ++ x).drop 10 = x := by
  rw [show (10 : Nat) = committerTag.length from rfl]
  exact List.drop_left _ _

theorem parseLoop_tree (acc : ParseAcc) (x : PyStr) (rest : List PyStr) :
    parseLoop acc ((treeTag ++ x) :: rest) = parseLoop { acc with tree := some x } rest := by
  rw [parseLoop]
  simp only [pyStartsWith_append, if_true, drop_treeTag]

theorem parseLoop_parent (acc : ParseAcc) (p : PyStr) (rest : List PyStr) :
    parseLoop acc ((parentTag ++ p) :: rest)
      = parseLoop { acc with parents := acc.parents ++ [p] } rest := by
  rw [parseLoop]
  simp only [show pyStartsWith treeTag (parentTag ++ p) = false from rfl,
    pyStartsWith_append, Bool.false_eq_true, if_false, if_true, drop_parentTag]

theorem parseLoop_parents (acc : ParseAcc) (ps : List PyStr) (rest : List PyStr) :
    parseLoop acc ((ps.map fun p => parentTag ++ p) ++ rest)
      = parseLoop { acc with parents := acc.parents ++ ps } rest := by
  induction ps generalizing acc with
  | nil => simp
  | cons p ps' ih =>
    rw [List.map_cons, List.cons_append, parseLoop_parent, ih]
    simp [List.append_assoc]

theorem parseLoop_author (acc : ParseAcc) (a : PyStr) (ts : Int) (rest : List PyStr) :
    parseLoop acc ((authorTag ++ a ++ [32] ++ intStr ts ++ utcTag) :: rest)
      = parseLoop { acc with author := some a, timestamp := some ts } rest := by
  have hsplit : pyRsplit 32 2 ((authorTag ++ a ++ [32] ++ intStr ts ++ utcTag).drop 7)
      = [a, intStr ts, pystr "+0000"] := by
    rw [show authorTag ++ a ++ [32] ++ intStr ts ++ utcTag
        = authorTag ++ (a ++ [32] ++ intStr ts ++ utcTag) by simp,
      drop_authorTag,
      show a ++ [32] ++ intStr ts ++ utcTag = a ++ [32] ++ intStr ts ++ [32] ++ pystr "+0000" by
        simp [show utcTag = 32 :: pystr "+0000" from rfl]]
    exact pyRsplit_three a (intStr ts) (pystr "+0000") (intStr_no_space ts) (by decide)
  rw [parseLoop]
  simp only [show pyStartsWith treeTag (authorTag ++ a ++ [32] ++ intStr ts ++ utcTag)
      = false from rfl,
    show pyStartsWith parentTag (authorTag ++ a ++ [32] ++ intStr ts ++ utcTag)
      = false from rfl,
    show pyStartsWith authorTag (authorTag ++ a ++ [32] ++ intStr ts ++ utcTag) = true from by
      rw [show authorTag ++ a ++ [32] ++ intStr ts ++ utcTag
          = authorTag ++ (a ++ [32] ++ intStr ts ++ utcTag) by simp]
      exact pyStartsWith_append _ _,
    Bool.false_eq_true, if_false, if_true, hsplit, pyIntParse_intStr]

theorem parseLoop_committer (acc : ParseAcc) (cm : PyStr) (ts : Int) (rest : List PyStr) :
    parseLoop acc ((committerTag ++ cm ++ [32] ++ intStr ts ++ utcTag) :: rest)
      = parseLoop { acc with committer := some cm } rest := by
  have hsplit : pyRsplit 32 2 ((committerTag ++ cm ++ [32] ++ intStr ts ++ utcTag).drop 10)
      = [cm, intStr ts, pystr "+0000"] := by
    rw [show committerTag ++ cm ++ [32] ++ intStr ts ++ utcTag
        = committerTag ++ (cm ++ [32] ++ intStr ts ++ utcTag) by simp,
      drop_committerTag,
      show cm ++ [32] ++ intStr ts ++ utcTag = cm ++ [32] ++ intStr ts ++ [32] ++ pystr "+0000" by
        simp [show utcTag = 32 :: pystr "+0000" from rfl]]
    exact pyRsplit_three cm (intStr ts) (pystr "+0000") (intStr_no_space ts) (by decide)
  rw [parseLoop]
  simp only [show pyStartsWith treeTag (committerTag ++ cm ++ [32] ++ intStr ts ++ utcTag)
      = false from rfl,
    show pyStartsWith parentTag (committerTag ++ cm ++ [32] ++ intStr ts ++ utcTag)
      = false from rfl,
    show pyStartsWith authorTag (committerTag ++ cm ++ [32] ++ intStr ts ++ utcTag)
      = false from rfl,
    show pyStartsWith committerTag (committerTag ++ cm ++ [32] ++ intStr ts ++ utcTag)
      = true from by
      rw [show committerTag ++ cm ++ [32] ++ intStr ts ++ utcTag
          = committerTag ++ (cm ++ [32] ++ intStr ts ++ utcTag) by simp]
      exact pyStartsWith_append _ _,
    Bool.false_eq_true, if_false, if_true, hsplit]

theorem parseLoop_break (acc : ParseAcc) (rest : List PyStr) :
    parseLoop acc ([] :: rest) = some acc := rfl

/-!  Claim C8: parent lists survive the serialize/parse round trip. -/

/-- C8: serializing a commit and parsing it back with `Commit.from_content`
preserves the parent list exactly, in order — in particular a zero-parent
commit round-trips to an empty parent list and a one-parent commit preserves
that parent's hash — for every commit whose header fields (rendered tree hash,
each parent hash, rendered author and committer) contain no newline; the
message is unrestricted (parsing breaks at the first blank line).
Re-serialization emits the parsed list in order, so order is preserved through
any re-serialization. -/
theorem commit_parents_roundtrip (c : Commit) (now : Int)
    (ht : (10 : Nat) ∉ optStr c.tree_hash)
    (hp : ∀ p ∈ c.parent_hashes, (10 : Nat) ∉ p)
    (ha : (10 : Nat) ∉ optStr c.author)
    (hc : (10 : Nat) ∉ optStr c.committer) :
    (Commit.fromContent (Commit.serializeCommit c) now).map Commit.parent_hashes
      = some c.parent_hashes := by
  have hnol : ∀ b ∈ ((treeTag ++ optStr c.tree_hash)
        :: List.map (fun p => parentTag ++ p) c.parent_hashes)
      ++ [authorTag ++ optStr c.author ++ [32] ++ intStr c.timestamp ++ utcTag,
          committerTag ++ optStr c.committer ++ [32] ++ intStr c.timestamp ++ utcTag,
          []], (10 : Nat) ∉ b := by
    intro b hb
    rcases List.mem_append.mp hb with hb | hb
    · rcases List.mem_cons.mp hb with rfl | hb
      · simp only [List.mem_append]
        push_neg
        exact ⟨by decide, ht⟩
      · rcases List.mem_map.mp hb with ⟨p, hpmem, rfl⟩
        simp only [List.mem_append]
        push_neg
        exact ⟨by decide, hp p hpmem⟩
    · rcases List.mem_cons.mp hb with rfl | hb
      · simp only [List.mem_append]
        push_neg
        exact ⟨⟨⟨⟨by decide, ha⟩, by decide⟩, intStr_no_nl c.timestamp⟩, by decide⟩
      · rcases List.mem_cons.mp hb with rfl | hb
        · simp only [List.mem_append]
          push_neg
          exact ⟨⟨⟨⟨by decide, hc⟩, by decide⟩, intStr_no_nl c.timestamp⟩, by decide⟩
        · rcases List.mem_cons.mp hb with rfl | hb
          · simp
          · simp at hb
  have hlines : pySplit 10 (Commit.serializeCommit c)
      = (treeTag ++ optStr c.tree_hash)
          :: (List.map (fun p => parentTag ++ p) c.parent_hashes
            ++ (authorTag ++ optStr c.author ++ [32] ++ intStr c.timestamp ++ utcTag)
              :: (committerTag ++ optStr c.committer ++ [32] ++ intStr c.timestamp ++ utcTag)
              :: [] :: pySplit 10 c.message) := by
    rw [Commit.serializeCommit]
    rw [show [authorTag ++ optStr c.author ++ [32] ++ intStr c.timestamp ++ utcTag,
          committerTag ++ optStr c.committer ++ [32] ++ intStr c.timestamp ++ utcTag,
          ([] : PyStr), c.message]
        = [authorTag ++ optStr c.author ++ [32] ++ intStr c.timestamp ++ utcTag,
            committerTag ++ optStr c.committer ++ [32] ++ intStr c.timestamp ++ utcTag,
            []] ++ [c.message] from rfl]
    rw [← List.append_assoc]
    rw [pySplit_join 10 _ c.message hnol]
    simp
  simp only [Commit.fromContent]
  rw [hlines, parseLoop_tree, parseLoop_parents, parseLoop_author, parseLoop_committer,
    parseLoop_break]
  simp [mkCommit]

/-- Witness for C8: the concrete one-parent commit `commitC8` round-trips its
parent list. -/
theorem commit_parents_roundtrip_check :
    (Commit.fromContent (Commit.serializeCommit commitC8) 99).map Commit.parent_hashes
      = some [pystr "p1"] :=
  commit_parents_roundtrip commitC8 99 (by decide) (by decide) (by decide) (by decide)

/-- C2 (amended): whenever the staging index is empty, or the rebuilt root
tree hash equals the tip commit's tree hash, `commit` signals the distinct
"nothing to commit" outcome by returning `None`, creates no commit object,
leaves the index untouched, does not move the branch ref and does not touch
`HEAD` — the ONLY store change is what `create_tree_from_index` already wrote
(it runs before both checks, which is what the counterexample exhibits). -/
theorem commit_noop_before_ref_update (sha1 : Bytes → PyStr) (compress decompress : Bytes → Bytes)
    (now : Int) (s : RepoState) (msg auth : PyStr)
    (h : s.index = [] ∨
      ∃ p pobj pc, getBranchCommit s.refs (getCurrentBranch s.head) = some p ∧ p ≠ [] ∧
        loadObject decompress (createTreeFromIndex sha1 compress s.store s.index).2 p
          = some pobj ∧
        Commit.fromContent pobj.content now = some pc ∧
        (createTreeFromIndex sha1 compress s.store s.index).1 = pc.tree_hash) :
    commitRun sha1 compress decompress now s msg auth
      = some (none, { s with store := (createTreeFromIndex sha1 compress s.store s.index).2 }) := by
  rcases h with h | ⟨p, pobj, pc, hp, hpne, hload, hparse, hhash⟩
  · simp [commitRun, h]
  · by_cases hempty : s.index.isEmpty
    · simp [commitRun, hempty]
    · have hpe : p.isEmpty = false := by
        cases p with
        | nil => exact absurd rfl hpne
        | cons q qs => rfl
      simp [commitRun, hempty, hp, hpe, hload, hparse, hhash]

/-- Witness for C2's amended theorem: the freshly initialized state has an
empty index. -/
theorem commit_noop_before_ref_update_check :
    commitRun idDigest idCodec idCodec 0 initState [] []
      = some (none, { initState with
          store := (createTreeFromIndex idDigest idCodec initState.store initState.index).2 }) :=
  commit_noop_before_ref_update idDigest idCodec idCodec 0 initState [] [] (Or.inl rfl)

/-!  Claim C10: HEAD resolution and the branch-ref file commit touches. -/

/-- C10: `get_current_branch` returns the string `"master"` when the `HEAD`
file does not exist, even though `init` writes `HEAD` as
`"ref: refs/heads/main\n"` (which resolves to `"main"`); when the stripped
`HEAD` content does not start with `"ref: refs/heads/"` (a raw commit hash,
detached) it returns the literal string `"HEAD"`; and on every successful
commit the branch-ref file that gets written (via `set_branch_commit`, which
`get_branch_commit` also read for the parent) is the one named by exactly that
returned string. -/
theorem head_branch_resolution :
    getCurrentBranch none = pystr "master" ∧
    (initState.head = some (pystr "ref: refs/heads/main\n") ∧
      getCurrentBranch initState.head = pystr "main") ∧
    (∀ c, pyStartsWith refHeadsTag (pyStrip c) = false →
      getCurrentBranch (some c) = pystr "HEAD") ∧
    (∀ (sha1 : Bytes → PyStr) (compress decompress : Bytes → Bytes) (now : Int)
      (s : RepoState) (msg auth r : PyStr) (s' : RepoState),
      commitRun sha1 compress decompress now s msg auth = some (some r, s') →
        s'.refs = setBranchCommit s.refs (getCurrentBranch s.head) r) := by
  refine ⟨rfl, ⟨rfl, by decide⟩, ?_, ?_⟩
  · intro c hc
    rw [getCurrentBranch]
    simp only [hc, Bool.false_eq_true, if_false]
  · intro sha1 compress decompress now s msg auth r s' h
    simp only [commitRun] at h
    split at h
    · simp at h
    · split at h
      · split at h
        · simp at h
        · split at h
          · simp at h
          · split at h
            · simp at h
            · simp only [Option.some.injEq, Prod.mk.injEq] at h
              obtain ⟨hr, hs⟩ := h
              subst hs
              rw [← hr]
      · simp only [Option.some.injEq, Prod.mk.injEq] at h
        obtain ⟨hr, hs⟩ := h
        subst hs
        rw [← hr]

/-- Witness for C10: a detached-HEAD state (`HEAD` holding the raw hash
`"abc"`) resolves to the branch name `"HEAD"`, and a successful commit from it
writes the branch-ref file named `"HEAD"`. -/
theorem head_branch_resolution_check :
    getCurrentBranch (some (pystr "abc")) = pystr "HEAD" ∧
    sC10final.refs = setBranchCommit sC10.refs (getCurrentBranch sC10.head) [104] := by
  have h1 : createTreeFromIndex constDigest idCodec sC10.store sC10.index
      = (some [104], [([104], GitObject.serialize idCodec
          (treeObj [(pystr "100644", pystr "x", pystr "aa")]))]) := by
    rw [createTreeFromIndex]
    simp only [show sC10.index.isEmpty = false from rfl, Bool.false_eq_true, if_false,
      show rootEntriesOf (partitionIndex sC10.index)
        = [(pystr "x", Node.leaf (pystr "aa"))] from rfl]
    rw [createTreeRecursive]
    decide
  have hEval : commitRun constDigest idCodec idCodec 7 sC10 (pystr "m") (pystr "A")
      = some (some [104], sC10final) := by
    simp only [commitRun, h1]
    decide
  exact ⟨head_branch_resolution.2.2.1 (pystr "abc") (by decide),
    head_branch_resolution.2.2.2 constDigest idCodec idCodec 7 sC10 (pystr "m") (pystr "A")
      [104] sC10final hEval⟩

end PyGit
